import Mathlib

/-!
Verification of the bignum core: single decimal digits (`src/digit.rs`) and
arbitrary-precision naturals (`src/natural.rs`), shallowly embedded.
Machine integers (`u8`, `usize`) are modelled as `Nat`; every arithmetic site
in the source stays far below any overflow boundary (sums at most 19,
products at most 89), so no wraparound modelling is needed.  Rust loops that
can fail to terminate (the subtraction borrow scan, the division
repeated-subtraction loop) are modelled with explicit fuel or a bounded scan,
with `none` marking exactly the runs on which the Rust code never returns.
-/

/-- The ten-valued digit enumeration from `src/digit.rs` (`pub enum Digit`).
The Rust derive of `Ord` orders by declaration order, which is numeric
order. -/
inductive Digit where
  | Zero
  | One
  | Two
  | Three
  | Four
  | Five
  | Six
  | Seven
  | Eight
  | Nine
deriving DecidableEq, Repr, Fintype

namespace Digit

/-- `Digit::as_u8` from `src/digit.rs`. -/
def as_u8 : Digit → Nat
  | .Zero => 0
  | .One => 1
  | .Two => 2
  | .Three => 3
  | .Four => 4
  | .Five => 5
  | .Six => 6
  | .Seven => 7
  | .Eight => 8
  | .Nine => 9

/-- `impl TryFrom<u8> for Digit` from `src/digit.rs`: bytes `0..=9` map to the
corresponding digit, everything else is `Err("not a digit")`. -/
def tryFromU8 (v : Nat) : Except String Digit :=
  if v = 0 then .ok .Zero
  else if v = 1 then .ok .One
  else if v = 2 then .ok .Two
  else if v = 3 then .ok .Three
  else if v = 4 then .ok .Four
  else if v = 5 then .ok .Five
  else if v = 6 then .ok .Six
  else if v = 7 then .ok .Seven
  else if v = 8 then .ok .Eight
  else if v = 9 then .ok .Nine
  else .error "not a digit"

/-- Models the `.unwrap()` applied to `TryFrom<u8>` results inside
`add_two`/`mul_two`; the error branch is unreachable at every call site
(the converted value is provably at most 9 there). -/
def unwrapD : Except String Digit → Digit
  | .ok d => d
  | .error _ => .Zero

/-- `impl TryFrom<char> for Digit` from `src/digit.rs`. -/
def tryFromChar (c : Char) : Except String Digit :=
  if c = '0' then .ok .Zero
  else if c = '1' then .ok .One
  else if c = '2' then .ok .Two
  else if c = '3' then .ok .Three
  else if c = '4' then .ok .Four
  else if c = '5' then .ok .Five
  else if c = '6' then .ok .Six
  else if c = '7' then .ok .Seven
  else if c = '8' then .ok .Eight
  else if c = '9' then .ok .Nine
  else .error "not a digit"

/-- `impl Display for Digit`: a digit renders as its single decimal
character (`write!(f, "{}", self.as_u8())`). -/
def toChar : Digit → Char
  | .Zero => '0'
  | .One => '1'
  | .Two => '2'
  | .Three => '3'
  | .Four => '4'
  | .Five => '5'
  | .Six => '6'
  | .Seven => '7'
  | .Eight => '8'
  | .Nine => '9'

end Digit

/-- `pub struct CarrySum` from `src/digit.rs`. -/
structure CarrySum where
  carry : Bool
  sum : Digit
deriving DecidableEq, Repr

/-- `CarrySum::add_two` from `src/digit.rs`: `a + b` plus the incoming carry
bit, reduced mod 10 with a carry-out. -/
def CarrySum.add_two (self : CarrySum) (a b : Digit) : CarrySum :=
  let sum := a.as_u8 + b.as_u8 + (if self.carry then 1 else 0)
  if sum ≤ 9 then ⟨false, Digit.unwrapD (Digit.tryFromU8 sum)⟩
  else ⟨true, Digit.unwrapD (Digit.tryFromU8 (sum - 10))⟩

/-- `pub struct CarryProduct` from `src/digit.rs`. -/
structure CarryProduct where
  carry : Digit
  product : Digit
deriving DecidableEq, Repr

/-- `CarryProduct::mul_two` from `src/digit.rs`: `a * b` plus the incoming
carry digit, split into a product digit and a carry digit. -/
def CarryProduct.mul_two (self : CarryProduct) (a b : Digit) : CarryProduct :=
  let product := a.as_u8 * b.as_u8 + self.carry.as_u8
  if product ≤ 9 then ⟨.Zero, Digit.unwrapD (Digit.tryFromU8 product)⟩
  else
    let remainder := product % 10
    let carry := (product - remainder) / 10
    ⟨Digit.unwrapD (Digit.tryFromU8 carry), Digit.unwrapD (Digit.tryFromU8 remainder)⟩

/-- Modelled from the spec: the digit subtraction primitive
(`impl Sub for Digit`, used by `Natural`'s `Sub` as `a - b` with fields
`.borrow` and `.difference`) is not among the provided source files.
Spec section 3, "DigitDifference": if `a >= b` then `borrow=false`,
`difference = a - b`; else `borrow=true`, `difference = a + 10 - b`. -/
structure DigitDifference where
  borrow : Bool
  difference : Digit
deriving DecidableEq, Repr

/-- Modelled from the spec: digit subtraction as specified in section 3 of
the spec (see `DigitDifference`). -/
def Digit.sub (a b : Digit) : DigitDifference :=
  if b.as_u8 ≤ a.as_u8 then ⟨false, Digit.unwrapD (Digit.tryFromU8 (a.as_u8 - b.as_u8))⟩
  else ⟨true, Digit.unwrapD (Digit.tryFromU8 (a.as_u8 + 10 - b.as_u8))⟩

namespace Digit

theorem as_u8_le_nine (d : Digit) : d.as_u8 ≤ 9 := by cases d <;> decide

theorem as_u8_inj : ∀ d e : Digit, d.as_u8 = e.as_u8 → d = e := by decide

theorem as_u8_eq_zero : ∀ d : Digit, d.as_u8 = 0 → d = .Zero := by decide

theorem add_two_spec : ∀ (c : Bool) (s a b : Digit),
    ((CarrySum.mk c s).add_two a b).sum.as_u8
      + (if ((CarrySum.mk c s).add_two a b).carry then 10 else 0)
      = a.as_u8 + b.as_u8 + (if c then 1 else 0) := by decide

theorem mul_two_spec : ∀ (c p a b : Digit),
    ((CarryProduct.mk c p).mul_two a b).product.as_u8
      + 10 * ((CarryProduct.mk c p).mul_two a b).carry.as_u8
      = a.as_u8 * b.as_u8 + c.as_u8 := by decide

theorem sub_borrow_iff : ∀ a b : Digit,
    (Digit.sub a b).borrow = true ↔ a.as_u8 < b.as_u8 := by decide

theorem sub_diff_no_borrow : ∀ a b : Digit, b.as_u8 ≤ a.as_u8 →
    (Digit.sub a b).difference.as_u8 = a.as_u8 - b.as_u8 := by decide

theorem sub_diff_borrow : ∀ a b : Digit, a.as_u8 < b.as_u8 →
    (Digit.sub a b).difference.as_u8 = a.as_u8 + 10 - b.as_u8 := by decide

theorem tryFromChar_toChar : ∀ (c : Char) (d : Digit),
    tryFromChar c = .ok d → d.toChar = c := by
  intro c d h
  unfold tryFromChar at h
  split_ifs at h <;> (cases h; subst_vars; rfl)

end Digit

/-- `pub struct Natural { digits: Vec<digit::Digit> }` from `src/natural.rs`.
Index 0 is the ones place.  The source comments "We assume that the digits
vector always has at least one digit in it"; theorems that depend on that
invariant carry it as a hypothesis. -/
structure Natural where
  digits : List Digit
deriving DecidableEq, Repr

namespace Natural

/-- `Natural::zero`: in the source, `"0".parse().unwrap()`, i.e. the
single-digit sequence `[0]`. -/
def zero : Natural := ⟨[Digit.Zero]⟩

/-- `Natural::one`: in the source, `"1".parse().unwrap()`. -/
def one : Natural := ⟨[Digit.One]⟩

/-- `Natural::degree`: `digits.len() - 1` (truncated `Nat` subtraction; the
Rust `usize` subtraction would panic on an empty vector, which the "never
empty" invariant rules out). -/
def degree (n : Natural) : Nat := n.digits.length - 1

/-- `Natural::coefficient`: the stored digit at `power`, virtually
zero-extended beyond `degree()`. -/
def coefficient (n : Natural) (power : Nat) : Digit :=
  if n.degree < power then Digit.Zero
  else n.digits.getD power Digit.Zero

/-- `Natural::set_coefficient`: `self.digits[power] = coefficient` with no
bounds guard; `none` models the Rust index panic when `power` is past the
end of the stored sequence. -/
def set_coefficient (n : Natural) (power : Nat) (c : Digit) : Option Natural :=
  if power < n.digits.length then some ⟨n.digits.set power c⟩ else none

end Natural

/-- The numeric value of a digit sequence, least-significant digit first:
`Σ digits[i] * 10^i`. -/
def valD : List Digit → Nat
  | [] => 0
  | d :: ds => d.as_u8 + 10 * valD ds

/-- The numeric value of the width-`n` window of coefficients starting at
power `p` (positions past the end of the list count as zero, matching
`coefficient`). -/
def valW (ds : List Digit) (p : Nat) : Nat → Nat
  | 0 => 0
  | n + 1 => (ds.getD p Digit.Zero).as_u8 + 10 * valW ds (p + 1) n

/-- Numeric value of a `Natural`: `Σ digits[i] * 10^i`. -/
def Natural.val (n : Natural) : Nat := valD n.digits

theorem coefficient_eq_getD (n : Natural) (p : Nat) :
    n.coefficient p = n.digits.getD p Digit.Zero := by
  unfold Natural.coefficient Natural.degree
  split
  · next h =>
    have hlen : n.digits.length ≤ p := by omega
    rw [List.getD_eq_default _ _ hlen]
  · rfl

theorem valW_nil (p n : Nat) : valW [] p n = 0 := by
  induction n generalizing p with
  | zero => rfl
  | succ n ih => simp [valW, ih, Digit.as_u8]

theorem valW_cons (d : Digit) (ds : List Digit) (p n : Nat) :
    valW (d :: ds) (p + 1) n = valW ds p n := by
  induction n generalizing p with
  | zero => rfl
  | succ n ih => simp [valW, ih, List.getD_cons_succ]

theorem valW_eq_valD (ds : List Digit) (n : Nat) (h : ds.length ≤ n) :
    valW ds 0 n = valD ds := by
  induction ds generalizing n with
  | nil => simp [valW_nil, valD]
  | cons d ds ih =>
    match n, h with
    | n + 1, h =>
      simp only [valW, List.getD_cons_zero, valD]
      rw [valW_cons, ih]
      simpa using h

theorem valW_split (ds : List Digit) (p k m : Nat) :
    valW ds p (k + m) = valW ds p k + 10 ^ k * valW ds (p + k) m := by
  induction k generalizing p with
  | zero => simp [valW]
  | succ k ih =>
    have : k + 1 + m = (k + m) + 1 := by omega
    rw [this]
    simp only [valW]
    rw [ih (p + 1)]
    have : p + 1 + k = p + (k + 1) := by omega
    rw [this]
    ring

theorem valW_lt (ds : List Digit) (p n : Nat) : valW ds p n < 10 ^ n := by
  induction n generalizing p with
  | zero => simp [valW]
  | succ n ih =>
    have h1 := (ds.getD p Digit.Zero).as_u8_le_nine
    have h2 := ih (p + 1)
    simp only [valW, pow_succ]
    omega

theorem valW_congr (xs ys : List Digit) (p q n : Nat)
    (h : ∀ i, i < n → xs.getD (p + i) Digit.Zero = ys.getD (q + i) Digit.Zero) :
    valW xs p n = valW ys q n := by
  induction n generalizing p q with
  | zero => rfl
  | succ n ih =>
    simp only [valW]
    have h0 := h 0 (by omega)
    simp only [Nat.add_zero] at h0
    rw [h0, ih (p + 1) (q + 1)]
    intro i hi
    have := h (i + 1) (by omega)
    have e1 : p + (i + 1) = p + 1 + i := by omega
    have e2 : q + (i + 1) = q + 1 + i := by omega
    rw [e1, e2] at this
    exact this

theorem valW_all_zero (ds : List Digit) (p n : Nat)
    (h : ∀ i, i < n → ds.getD (p + i) Digit.Zero = Digit.Zero) :
    valW ds p n = 0 := by
  induction n generalizing p with
  | zero => rfl
  | succ n ih =>
    simp only [valW]
    have h0 := h 0 (by omega)
    simp only [Nat.add_zero] at h0
    rw [h0, ih (p + 1)]
    · rfl
    · intro i hi
      have := h (i + 1) (by omega)
      have e1 : p + (i + 1) = p + 1 + i := by omega
      rw [e1] at this
      exact this

theorem valW_all_nine (ds : List Digit) (p n : Nat)
    (h : ∀ i, i < n → ds.getD (p + i) Digit.Zero = Digit.Nine) :
    valW ds p n = 10 ^ n - 1 := by
  induction n generalizing p with
  | zero => rfl
  | succ n ih =>
    simp only [valW]
    have h0 := h 0 (by omega)
    simp only [Nat.add_zero] at h0
    rw [h0, ih (p + 1)]
    · have : (1:Nat) ≤ 10 ^ n := Nat.one_le_pow _ _ (by omega)
      simp only [Digit.as_u8, pow_succ]
      omega
    · intro i hi
      have := h (i + 1) (by omega)
      have e1 : p + (i + 1) = p + 1 + i := by omega
      rw [e1] at this
      exact this

theorem valD_cons (d : Digit) (ds : List Digit) :
    valD (d :: ds) = d.as_u8 + 10 * valD ds := rfl

theorem valD_append (xs ys : List Digit) :
    valD (xs ++ ys) = valD xs + 10 ^ xs.length * valD ys := by
  induction xs with
  | nil => simp [valD]
  | cons x xs ih =>
    simp only [List.cons_append, valD, List.length_cons, List.append_eq]
    rw [ih, pow_succ]
    ring

theorem valD_lt (ds : List Digit) : valD ds < 10 ^ ds.length := by
  induction ds with
  | nil => simp [valD]
  | cons d ds ih =>
    have := d.as_u8_le_nine
    simp only [valD, List.length_cons, pow_succ]
    omega

theorem valD_inj_len : ∀ xs ys : List Digit,
    xs.length = ys.length → valD xs = valD ys → xs = ys := by
  intro xs
  induction xs with
  | nil => intro ys hl _; cases ys <;> simp_all
  | cons x xs ih =>
    intro ys hl hv
    match ys with
    | y :: ys =>
      simp only [valD] at hv
      have hx := x.as_u8_le_nine
      have hy := y.as_u8_le_nine
      have h1 : x.as_u8 = y.as_u8 := by omega
      have h2 : valD xs = valD ys := by omega
      have := Digit.as_u8_inj x y h1
      subst this
      simp only [List.length_cons, Nat.add_right_cancel_iff] at hl
      rw [ih ys hl h2]

/-- The digit-position loop of `PartialOrd for Natural`
(`for p in (0..self.degree()+1).rev()`): checks position `count - 1` first,
then descends; digits compare through the derived `Ord`, i.e. numerically. -/
def cmpDown (a b : Natural) : Nat → Ordering
  | 0 => .eq
  | p + 1 =>
    if (a.coefficient p).as_u8 < (b.coefficient p).as_u8 then .lt
    else if (b.coefficient p).as_u8 < (a.coefficient p).as_u8 then .gt
    else cmpDown a b p

/-- `impl PartialOrd for Natural` / `impl Ord for Natural` from
`src/natural.rs`: first by `degree()`, then digit by digit from the most
significant position down (`partial_cmp` always returns `Some`, so `cmp`
never panics). -/
def Natural.cmp (a b : Natural) : Ordering :=
  if a.degree < b.degree then .lt
  else if b.degree < a.degree then .gt
  else cmpDown a b (a.degree + 1)

/-- Canonical digit sequence: non-empty, and no most-significant zero digit
unless the sequence is a single digit. -/
def Natural.Canon (n : Natural) : Prop :=
  n.digits ≠ [] ∧ (n.digits.getLast? = some Digit.Zero → n.digits.length = 1)

instance (n : Natural) : Decidable n.Canon := by
  unfold Natural.Canon
  exact inferInstance

theorem window_lt (A B x y : Nat) (p : Nat) (hA : A < 10 ^ p) (hxy : x < y) :
    A + 10 ^ p * x < B + 10 ^ p * y := by
  have h3 : 10 ^ p * (x + 1) ≤ 10 ^ p * y := Nat.mul_le_mul_left _ (by omega)
  have h4 : 10 ^ p * (x + 1) = 10 ^ p * x + 10 ^ p := by ring
  omega

theorem valW_top_split (ds : List Digit) (p : Nat) :
    valW ds 0 (p + 1) = valW ds 0 p + 10 ^ p * (ds.getD p Digit.Zero).as_u8 := by
  rw [valW_split ds 0 p 1]
  simp [valW]

/-- Trichotomy of the digit-position comparison loop against the windowed
numeric values. -/
theorem cmpDown_spec (a b : Natural) : ∀ count,
    (cmpDown a b count = .lt ∧ valW a.digits 0 count < valW b.digits 0 count)
    ∨ (cmpDown a b count = .eq ∧ valW a.digits 0 count = valW b.digits 0 count)
    ∨ (cmpDown a b count = .gt ∧ valW b.digits 0 count < valW a.digits 0 count) := by
  intro count
  induction count with
  | zero => exact Or.inr (Or.inl ⟨rfl, rfl⟩)
  | succ p ih =>
    have ha := valW_lt a.digits 0 p
    have hb := valW_lt b.digits 0 p
    rw [valW_top_split a.digits p, valW_top_split b.digits p]
    simp only [cmpDown, coefficient_eq_getD]
    split_ifs with h1 h2
    · exact Or.inl ⟨rfl, window_lt _ _ _ _ p ha h1⟩
    · exact Or.inr (Or.inr ⟨rfl, window_lt _ _ _ _ p hb h2⟩)
    · have hxy : (a.digits.getD p Digit.Zero).as_u8 = (b.digits.getD p Digit.Zero).as_u8 := by
        omega
      rw [hxy]
      rcases ih with ⟨hc, hv⟩ | ⟨hc, hv⟩ | ⟨hc, hv⟩
      · exact Or.inl ⟨hc, by omega⟩
      · exact Or.inr (Or.inl ⟨hc, by omega⟩)
      · exact Or.inr (Or.inr ⟨hc, by omega⟩)

theorem cmpDown_lt_iff (a b : Natural) (count : Nat) :
    cmpDown a b count = .lt ↔ valW a.digits 0 count < valW b.digits 0 count := by
  rcases cmpDown_spec a b count with ⟨hc, hv⟩ | ⟨hc, hv⟩ | ⟨hc, hv⟩ <;> rw [hc]
  · exact ⟨fun _ => hv, fun _ => rfl⟩
  · exact ⟨fun h => absurd h (by decide), fun h => by omega⟩
  · exact ⟨fun h => absurd h (by decide), fun h => by omega⟩

theorem cmpDown_eq_iff (a b : Natural) (count : Nat) :
    cmpDown a b count = .eq ↔ valW a.digits 0 count = valW b.digits 0 count := by
  rcases cmpDown_spec a b count with ⟨hc, hv⟩ | ⟨hc, hv⟩ | ⟨hc, hv⟩ <;> rw [hc]
  · exact ⟨fun h => absurd h (by decide), fun h => by omega⟩
  · exact ⟨fun _ => hv, fun _ => rfl⟩
  · exact ⟨fun h => absurd h (by decide), fun h => by omega⟩

theorem cmpDown_gt_iff (a b : Natural) (count : Nat) :
    cmpDown a b count = .gt ↔ valW b.digits 0 count < valW a.digits 0 count := by
  rcases cmpDown_spec a b count with ⟨hc, hv⟩ | ⟨hc, hv⟩ | ⟨hc, hv⟩ <;> rw [hc]
  · exact ⟨fun h => absurd h (by decide), fun h => by omega⟩
  · exact ⟨fun h => absurd h (by decide), fun h => by omega⟩
  · exact ⟨fun _ => hv, fun _ => rfl⟩

theorem valD_dropLast_last (ds : List Digit) (h : ds ≠ []) :
    valD ds = valD ds.dropLast + 10 ^ (ds.length - 1) * (ds.getLast h).as_u8 := by
  conv_lhs => rw [← List.dropLast_append_getLast h]
  rw [valD_append]
  simp [valD, List.length_dropLast]

/-- A `Natural` is canonical exactly when it is non-empty and either a single
digit or numerically at least `10^(length-1)`. -/
theorem canon_iff_val (n : Natural) :
    n.Canon ↔ n.digits ≠ [] ∧
      (n.digits.length = 1 ∨ 10 ^ (n.digits.length - 1) ≤ n.val) := by
  unfold Natural.Canon
  rcases n with ⟨ds⟩
  simp only
  constructor
  · rintro ⟨hne, hlast⟩
    refine ⟨hne, ?_⟩
    by_cases hlen : ds.length = 1
    · exact Or.inl hlen
    · right
      have hval := valD_dropLast_last ds hne
      have hdl : ds.dropLast.length = ds.length - 1 := List.length_dropLast ds
      have hlast_ne : (ds.getLast hne) ≠ Digit.Zero := by
        intro hz
        have : ds.getLast? = some Digit.Zero := by
          rw [List.getLast?_eq_getLast ds hne, hz]
        exact hlen (hlast this)
      have h1 : 1 ≤ (ds.getLast hne).as_u8 := by
        rcases Nat.eq_zero_or_pos (ds.getLast hne).as_u8 with h0 | h0
        · exact absurd (Digit.as_u8_eq_zero _ h0) hlast_ne
        · exact h0
      have h2 : 10 ^ (ds.length - 1) ≤ 10 ^ (ds.length - 1) * (ds.getLast hne).as_u8 :=
        Nat.le_mul_of_pos_right _ h1
      unfold Natural.val
      simp only
      omega
  · rintro ⟨hne, hbound⟩
    refine ⟨hne, ?_⟩
    intro hlast
    rcases hbound with hlen | hbound
    · exact hlen
    · exfalso
      have hval := valD_dropLast_last ds hne
      have hz : ds.getLast hne = Digit.Zero := by
        have := List.getLast?_eq_getLast ds hne
        rw [this] at hlast
        exact Option.some_injective _ hlast
      rw [hz] at hval
      simp only [Digit.as_u8, Nat.mul_zero, Nat.add_zero] at hval
      have hlt : valD ds.dropLast < 10 ^ ds.dropLast.length := valD_lt _
      have hdl : ds.dropLast.length = ds.length - 1 := List.length_dropLast ds
      rw [hdl] at hlt
      unfold Natural.val at hbound
      simp only at hbound
      omega

theorem canon_val_lb (n : Natural) (h : n.Canon) (hlen : 2 ≤ n.digits.length) :
    10 ^ (n.digits.length - 1) ≤ n.val := by
  rcases (canon_iff_val n).mp h with ⟨-, h1 | h1⟩
  · omega
  · exact h1

theorem val_lt_pow_len (n : Natural) : n.val < 10 ^ n.digits.length := valD_lt _

theorem canon_ne_zero_val (b : Natural) (hb : b.Canon) (hz : b ≠ Natural.zero) :
    1 ≤ b.val := by
  rcases Nat.eq_zero_or_pos b.val with h0 | h0
  · exfalso
    rcases (canon_iff_val b).mp hb with ⟨hne, h1 | h1⟩
    · rcases b with ⟨ds⟩
      match ds, hne, h1 with
      | [d], _, _ =>
        have : d.as_u8 = 0 := by
          simp [Natural.val, valD] at h0
          omega
        have := Digit.as_u8_eq_zero d this
        subst this
        exact hz rfl
    · have : (1:Nat) ≤ 10 ^ (b.digits.length - 1) := Nat.one_le_pow _ _ (by omega)
      omega
  · exact h0

/-- For canonical operands the source ordering agrees with numeric value:
less-than, equality (the derived `PartialEq`, i.e. structural), and
greater-than each mirror the numeric comparison. -/
theorem cmp_correct (a b : Natural) (ha : a.Canon) (hb : b.Canon) :
    (a.cmp b = .lt ↔ a.val < b.val)
    ∧ (a = b ↔ a.val = b.val)
    ∧ (a.cmp b = .gt ↔ b.val < a.val) := by
  have hane : a.digits ≠ [] := ha.1
  have hbne : b.digits ≠ [] := hb.1
  have hal : 1 ≤ a.digits.length := List.length_pos.mpr hane
  have hbl : 1 ≤ b.digits.length := List.length_pos.mpr hbne
  have hlt_of_shorter : ∀ x y : Natural, x.Canon → y.Canon →
      x.digits.length < y.digits.length → x.val < y.val := by
    intro x y hx hy hlen
    have h1 : x.val < 10 ^ x.digits.length := val_lt_pow_len x
    have h2 : 10 ^ (y.digits.length - 1) ≤ y.val :=
      canon_val_lb y hy (by have := List.length_pos.mpr hx.1; omega)
    have h3 : 10 ^ x.digits.length ≤ 10 ^ (y.digits.length - 1) :=
      Nat.pow_le_pow_right (by omega) (by omega)
    omega
  unfold Natural.cmp Natural.degree
  rcases Nat.lt_trichotomy a.digits.length b.digits.length with hl | hl | hl
  · have hd : a.digits.length - 1 < b.digits.length - 1 := by omega
    rw [if_pos hd]
    have hv := hlt_of_shorter a b ha hb hl
    refine ⟨⟨fun _ => hv, fun _ => rfl⟩, ?_, ?_⟩
    · constructor
      · intro h; rw [h]
      · intro h; omega
    · exact ⟨fun h => absurd h (by decide), fun h => by omega⟩
  · have hd : ¬ (a.digits.length - 1 < b.digits.length - 1) := by omega
    have hd2 : ¬ (b.digits.length - 1 < a.digits.length - 1) := by omega
    rw [if_neg hd, if_neg hd2]
    have hcount : a.digits.length - 1 + 1 = a.digits.length := by omega
    have hwa : valW a.digits 0 (a.digits.length - 1 + 1) = a.val := by
      rw [hcount]; exact valW_eq_valD _ _ (by omega)
    have hwb : valW b.digits 0 (a.digits.length - 1 + 1) = b.val := by
      rw [hcount]; rw [hl]; exact valW_eq_valD _ _ (by omega)
    refine ⟨?_, ?_, ?_⟩
    · rw [cmpDown_lt_iff, hwa, hwb]
    · constructor
      · intro h; rw [h]
      · intro h
        rcases a with ⟨xs⟩
        rcases b with ⟨ys⟩
        have : xs = ys := valD_inj_len xs ys hl h
        rw [this]
    · rw [cmpDown_gt_iff, hwa, hwb]
  · have hd : ¬ (a.digits.length - 1 < b.digits.length - 1) := by omega
    have hd2 : b.digits.length - 1 < a.digits.length - 1 := by omega
    rw [if_neg hd, if_pos hd2]
    have hv := hlt_of_shorter b a hb ha hl
    refine ⟨?_, ?_, ?_⟩
    · exact ⟨fun h => absurd h (by decide), fun h => by omega⟩
    · constructor
      · intro h; rw [h]
      · intro h; omega
    · exact ⟨fun _ => hv, fun _ => rfl⟩

/-- The carry-threading loop of `impl Add for Natural`: processes `count`
positions starting at power `p`, returning the produced digits in increasing
power order together with the final `CarrySum` state. -/
def addDigits (a b : Natural) (cs : CarrySum) (p : Nat) : Nat → List Digit × CarrySum
  | 0 => ([], cs)
  | count + 1 =>
    let cs2 := cs.add_two (a.coefficient p) (b.coefficient p)
    let r := addDigits a b cs2 (p + 1) count
    (cs2.sum :: r.1, r.2)

/-- `impl Add for Natural` from `src/natural.rs`: positions `0..n` with
`n = max(degree a, degree b) + 1`, then a final pushed `One` when a carry
remains. -/
def Natural.add (a b : Natural) : Natural :=
  let n := max a.degree b.degree + 1
  let r := addDigits a b ⟨false, Digit.Zero⟩ 0 n
  if r.2.carry then ⟨r.1 ++ [Digit.One]⟩ else ⟨r.1⟩

theorem addDigits_length (a b : Natural) :
    ∀ count cs p, (addDigits a b cs p count).1.length = count := by
  intro count
  induction count with
  | zero => intro cs p; rfl
  | succ count ih =>
    intro cs p
    simp only [addDigits, List.length_cons]
    rw [ih]

theorem addDigits_val (a b : Natural) :
    ∀ count cs p, valD (addDigits a b cs p count).1
        + (if (addDigits a b cs p count).2.carry then 10 ^ count else 0)
      = valW a.digits p count + valW b.digits p count + (if cs.carry then 1 else 0) := by
  intro count
  induction count with
  | zero => intro cs p; simp [addDigits, valD, valW]
  | succ count ih =>
    intro cs p
    have hspec := Digit.add_two_spec cs.carry cs.sum (a.coefficient p) (b.coefficient p)
    have hcs : (CarrySum.mk cs.carry cs.sum) = cs := rfl
    rw [hcs] at hspec
    have ih2 := ih (cs.add_two (a.coefficient p) (b.coefficient p)) (p + 1)
    simp only [addDigits, valD_cons, valW]
    rw [← coefficient_eq_getD a p, ← coefficient_eq_getD b p]
    have hpow : (10:Nat) ^ (count + 1) = 10 * 10 ^ count := by ring
    rw [hpow]
    by_cases hc2 : (cs.add_two (a.coefficient p) (b.coefficient p)).carry = true
    · rw [if_pos hc2] at hspec ih2
      by_cases hfin :
          (addDigits a b (cs.add_two (a.coefficient p) (b.coefficient p)) (p + 1) count).2.carry
            = true
      · rw [if_pos hfin] at ih2 ⊢
        by_cases hc : cs.carry = true
        · rw [if_pos hc] at hspec ⊢; omega
        · rw [if_neg hc] at hspec ⊢; omega
      · rw [if_neg hfin] at ih2 ⊢
        by_cases hc : cs.carry = true
        · rw [if_pos hc] at hspec ⊢; omega
        · rw [if_neg hc] at hspec ⊢; omega
    · rw [if_neg hc2] at hspec ih2
      by_cases hfin :
          (addDigits a b (cs.add_two (a.coefficient p) (b.coefficient p)) (p + 1) count).2.carry
            = true
      · rw [if_pos hfin] at ih2 ⊢
        by_cases hc : cs.carry = true
        · rw [if_pos hc] at hspec ⊢; omega
        · rw [if_neg hc] at hspec ⊢; omega
      · rw [if_neg hfin] at ih2 ⊢
        by_cases hc : cs.carry = true
        · rw [if_pos hc] at hspec ⊢; omega
        · rw [if_neg hc] at hspec ⊢; omega

theorem init_carry_zero :
    (if (CarrySum.mk false Digit.Zero).carry = true then (1:Nat) else 0) = 0 := rfl

/-- Addition computes the numeric sum. -/
theorem val_add (a b : Natural) : (a.add b).val = a.val + b.val := by
  have hn : a.digits.length ≤ max a.degree b.degree + 1 := by
    unfold Natural.degree; omega
  have hn2 : b.digits.length ≤ max a.degree b.degree + 1 := by
    unfold Natural.degree; omega
  have hv := addDigits_val a b (max a.degree b.degree + 1) ⟨false, Digit.Zero⟩ 0
  rw [valW_eq_valD _ _ hn, valW_eq_valD _ _ hn2, init_carry_zero, Nat.add_zero] at hv
  simp only [Natural.add, Natural.val]
  split
  · next hc =>
    rw [if_pos hc] at hv
    dsimp only
    rw [valD_append, addDigits_length]
    have hone : valD [Digit.One] = 1 := rfl
    rw [hone, Nat.mul_one]
    omega
  · next hc =>
    rw [if_neg hc] at hv
    dsimp only
    omega

/-- Length of an addition result: `n` positions, or `n + 1` with a numeric
value of at least `10^n` when a final carry was pushed. -/
theorem add_length (a b : Natural) :
    ((a.add b).digits.length = max a.degree b.degree + 1)
    ∨ ((a.add b).digits.length = max a.degree b.degree + 2
        ∧ 10 ^ (max a.degree b.degree + 1) ≤ (a.add b).val) := by
  have hv := addDigits_val a b (max a.degree b.degree + 1) ⟨false, Digit.Zero⟩ 0
  rw [init_carry_zero, Nat.add_zero] at hv
  simp only [Natural.add, Natural.val]
  split
  · next hc =>
    right
    rw [if_pos hc] at hv
    dsimp only
    constructor
    · simp only [List.length_append, List.length_cons, List.length_nil]
      rw [addDigits_length]
    · rw [valD_append, addDigits_length]
      have hone : valD [Digit.One] = 1 := rfl
      rw [hone, Nat.mul_one]
      omega
  · next hc =>
    left
    dsimp only
    rw [addDigits_length]

theorem add_digits_ne_nil (a b : Natural) : (a.add b).digits ≠ [] := by
  have h := add_length a b
  intro hnil
  rcases h with h | ⟨h, -⟩ <;> rw [hnil] at h <;> simp at h

/-- Addition of canonical operands is canonical. -/
theorem canon_add (a b : Natural) (ha : a.Canon) (hb : b.Canon) : (a.add b).Canon := by
  rw [canon_iff_val]
  refine ⟨add_digits_ne_nil a b, ?_⟩
  rcases add_length a b with h | ⟨h, hv⟩
  · by_cases h1 : max a.degree b.degree + 1 = 1
    · left; omega
    · right
      rw [h, val_add]
      have hane := List.length_pos.mpr ha.1
      have hbne := List.length_pos.mpr hb.1
      rcases Nat.le_total a.digits.length b.digits.length with hle | hle
      · have hlb : 2 ≤ b.digits.length := by
          unfold Natural.degree at h1; omega
        have hlow := canon_val_lb b hb hlb
        have hpe : max a.degree b.degree + 1 - 1 = b.digits.length - 1 := by
          unfold Natural.degree; omega
        rw [hpe]
        omega
      · have hla : 2 ≤ a.digits.length := by
          unfold Natural.degree at h1; omega
        have hlow := canon_val_lb a ha hla
        have hpe : max a.degree b.degree + 1 - 1 = a.digits.length - 1 := by
          unfold Natural.degree; omega
        rw [hpe]
        omega
  · right
    rw [h]
    have hpe : max a.degree b.degree + 2 - 1 = max a.degree b.degree + 1 := by
      omega
    rw [hpe]
    omega

theorem coefficient_mk (ds : List Digit) (p : Nat) :
    (Natural.mk ds).coefficient p = ds.getD p Digit.Zero :=
  coefficient_eq_getD ⟨ds⟩ p

theorem Digit.as_u8_pos : ∀ d : Digit, d ≠ Digit.Zero → 1 ≤ d.as_u8 := by decide

/-- The borrow scan of `impl Sub for Natural` (`loop { pp += 1; ... }`):
searches upward from `p + 1` for a position whose stored digit is non-zero.
The Rust loop reads `self.coefficient(pp)`, which returns `Zero` for every
power past the stored end, so when no non-zero stored digit exists above `p`
the loop never breaks; the scan is therefore bounded by the digit count and
`none` models that never-returning run. -/
def borrowScanAux (ds : List Digit) : Nat → Nat → Option Nat
  | 0, _ => none
  | fuel + 1, pp =>
    if (Natural.mk ds).coefficient pp ≠ Digit.Zero then some pp
    else borrowScanAux ds fuel (pp + 1)

def borrowScan (ds : List Digit) (p : Nat) : Option Nat :=
  borrowScanAux ds ds.length (p + 1)

theorem borrowScanAux_succ_pos (ds : List Digit) (fuel start : Nat)
    (h : ds.getD start Digit.Zero ≠ Digit.Zero) :
    borrowScanAux ds (fuel + 1) start = some start := by
  simp only [borrowScanAux, coefficient_mk]
  rw [if_pos h]

theorem borrowScanAux_succ_neg (ds : List Digit) (fuel start : Nat)
    (h : ds.getD start Digit.Zero = Digit.Zero) :
    borrowScanAux ds (fuel + 1) start = borrowScanAux ds fuel (start + 1) := by
  simp only [borrowScanAux, coefficient_mk]
  rw [if_neg (fun hh => hh h)]

theorem borrowScanAux_some (ds : List Digit) : ∀ fuel start pp,
    borrowScanAux ds fuel start = some pp →
    start ≤ pp ∧ pp < ds.length ∧ ds.getD pp Digit.Zero ≠ Digit.Zero ∧
      ∀ j, start ≤ j → j < pp → ds.getD j Digit.Zero = Digit.Zero := by
  intro fuel
  induction fuel with
  | zero => intro start pp h; simp [borrowScanAux] at h
  | succ fuel ih =>
    intro start pp h
    by_cases hnz : ds.getD start Digit.Zero = Digit.Zero
    · rw [borrowScanAux_succ_neg ds fuel start hnz] at h
      have ⟨h1, h2, h3, h4⟩ := ih (start + 1) pp h
      refine ⟨by omega, h2, h3, ?_⟩
      intro j hj1 hj2
      rcases Nat.eq_or_lt_of_le hj1 with he | hlt
      · rw [← he]; exact hnz
      · exact h4 j (by omega) hj2
    · rw [borrowScanAux_succ_pos ds fuel start hnz] at h
      have hpp : start = pp := Option.some_injective _ h
      subst hpp
      have hlt : start < ds.length := by
        by_contra hge
        exact hnz (List.getD_eq_default _ _ (by omega))
      exact ⟨Nat.le_refl _, hlt, hnz, fun j h1 h2 => by omega⟩

theorem borrowScanAux_none (ds : List Digit) : ∀ fuel start,
    borrowScanAux ds fuel start = none →
    ∀ j, start ≤ j → j < start + fuel → ds.getD j Digit.Zero = Digit.Zero := by
  intro fuel
  induction fuel with
  | zero => intro start _ j h1 h2; omega
  | succ fuel ih =>
    intro start h j h1 h2
    by_cases hnz : ds.getD start Digit.Zero = Digit.Zero
    · rw [borrowScanAux_succ_neg ds fuel start hnz] at h
      rcases Nat.eq_or_lt_of_le h1 with he | hlt
      · rw [← he]; exact hnz
      · exact ih (start + 1) h j (by omega) (by omega)
    · rw [borrowScanAux_succ_pos ds fuel start hnz] at h
      cases h

theorem borrowScan_none (ds : List Digit) (p : Nat) (h : borrowScan ds p = none) :
    ∀ j, p + 1 ≤ j → ds.getD j Digit.Zero = Digit.Zero := by
  intro j hj
  by_cases hlen : j < ds.length
  · exact borrowScanAux_none ds ds.length (p + 1) h j hj (by omega)
  · exact List.getD_eq_default _ _ (by omega)

theorem borrowScan_some (ds : List Digit) (p pp : Nat) (h : borrowScan ds p = some pp) :
    p + 1 ≤ pp ∧ pp < ds.length ∧ ds.getD pp Digit.Zero ≠ Digit.Zero ∧
      ∀ j, p + 1 ≤ j → j < pp → ds.getD j Digit.Zero = Digit.Zero :=
  borrowScanAux_some ds ds.length (p + 1) pp h

/-- The borrow-unwind loop of `impl Sub for Natural`
(`for ppp in (p+1)..pp { self.set_coefficient(ppp, Nine) }`), as a function:
sets `count` consecutive positions starting at `lo` to `Nine`. -/
def setRangeNine (ds : List Digit) : Nat → Nat → List Digit
  | _, 0 => ds
  | lo, k + 1 => setRangeNine (ds.set lo Digit.Nine) (lo + 1) k

theorem getD_set (d : Digit) : ∀ (ds : List Digit) (i j : Nat),
    (ds.set i d).getD j Digit.Zero
      = if i = j ∧ i < ds.length then d else ds.getD j Digit.Zero := by
  intro ds
  induction ds with
  | nil => intro i j; simp [List.set]
  | cons hd t ih =>
    intro i j
    match i, j with
    | 0, 0 => simp [List.set, List.getD_cons_zero]
    | 0, j + 1 => simp [List.set, List.getD_cons_succ]
    | i + 1, 0 => simp [List.set, List.getD_cons_zero]
    | i + 1, j + 1 =>
      simp only [List.set, List.getD_cons_succ, List.length_cons]
      rw [ih i j]
      by_cases hij : i = j ∧ i < t.length
      · rw [if_pos hij, if_pos ⟨by omega, by omega⟩]
      · rw [if_neg hij, if_neg (by omega)]

theorem setRangeNine_length : ∀ (k : Nat) (ds : List Digit) (lo : Nat),
    (setRangeNine ds lo k).length = ds.length := by
  intro k
  induction k with
  | zero => intro ds lo; rfl
  | succ k ih =>
    intro ds lo
    simp only [setRangeNine]
    rw [ih, List.length_set]

theorem setRangeNine_getD : ∀ (k : Nat) (ds : List Digit) (lo j : Nat),
    (setRangeNine ds lo k).getD j Digit.Zero
      = if lo ≤ j ∧ j < lo + k ∧ j < ds.length then Digit.Nine
        else ds.getD j Digit.Zero := by
  intro k
  induction k with
  | zero =>
    intro ds lo j
    rw [if_neg (by omega)]
    rfl
  | succ k ih =>
    intro ds lo j
    simp only [setRangeNine]
    rw [ih, List.length_set, getD_set]
    by_cases h1 : lo + 1 ≤ j ∧ j < lo + 1 + k ∧ j < ds.length
    · rw [if_pos h1, if_pos (by omega)]
    · rw [if_neg h1]
      by_cases h2 : lo = j ∧ lo < ds.length
      · rw [if_pos h2, if_pos (by omega)]
      · rw [if_neg h2, if_neg (by omega)]

/-- Effect of one borrow on the working digit sequence: positions strictly
between `p` and `pp` (all zeros) become nines, position `pp` drops by one;
the window value above `p` decreases by exactly one. -/
theorem borrow_rewrite (ds : List Digit) (p pp count : Nat)
    (hpp1 : p + 1 ≤ pp) (hpp2 : pp < ds.length) (hlen : ds.length ≤ p + 1 + count)
    (hnz : ds.getD pp Digit.Zero ≠ Digit.Zero)
    (hzeros : ∀ j, p + 1 ≤ j → j < pp → ds.getD j Digit.Zero = Digit.Zero) :
    1 ≤ valW ds (p + 1) count ∧
    valW (setRangeNine
        (ds.set pp (Digit.sub (ds.getD pp Digit.Zero) Digit.One).difference)
        (p + 1) (pp - (p + 1))) (p + 1) count + 1
      = valW ds (p + 1) count := by
  have hone : (1:Nat) ≤ 10 ^ (pp - (p + 1)) := Nat.one_le_pow _ _ (by omega)
  have hcpos : 1 ≤ (ds.getD pp Digit.Zero).as_u8 := Digit.as_u8_pos _ hnz
  have hc9 := (ds.getD pp Digit.Zero).as_u8_le_nine
  have hkm : ∃ m, count = (pp - (p + 1)) + (m + 1) := ⟨count - (pp - (p + 1)) - 1, by omega⟩
  rcases hkm with ⟨m, hm⟩
  have hsub : (Digit.sub (ds.getD pp Digit.Zero) Digit.One).difference.as_u8
      = (ds.getD pp Digit.Zero).as_u8 - 1 := by
    have := Digit.sub_diff_no_borrow (ds.getD pp Digit.Zero) Digit.One
      (by simpa [Digit.as_u8] using hcpos)
    simpa [Digit.as_u8] using this
  have hlen2 : (ds.set pp (Digit.sub (ds.getD pp Digit.Zero) Digit.One).difference).length
      = ds.length := List.length_set _ _ _
  -- pointwise description of the mutated sequence
  have hget : ∀ j, (setRangeNine
        (ds.set pp (Digit.sub (ds.getD pp Digit.Zero) Digit.One).difference)
        (p + 1) (pp - (p + 1))).getD j Digit.Zero
      = if p + 1 ≤ j ∧ j < pp then Digit.Nine
        else if j = pp then (Digit.sub (ds.getD pp Digit.Zero) Digit.One).difference
        else ds.getD j Digit.Zero := by
    intro j
    rw [setRangeNine_getD, hlen2, getD_set]
    by_cases h1 : p + 1 ≤ j ∧ j < pp
    · rw [if_pos ⟨h1.1, by omega, by omega⟩, if_pos h1]
    · rw [if_neg (by omega), if_neg h1]
      by_cases h2 : j = pp
      · rw [if_pos ⟨h2.symm, by omega⟩, if_pos h2]
      · rw [if_neg (by omega), if_neg h2]
  -- split both windows at the borrow position
  rw [hm, valW_split ds (p + 1) (pp - (p + 1)) (m + 1),
    valW_split (setRangeNine
        (ds.set pp (Digit.sub (ds.getD pp Digit.Zero) Digit.One).difference)
        (p + 1) (pp - (p + 1))) (p + 1) (pp - (p + 1)) (m + 1)]
  have hzw : valW ds (p + 1) (pp - (p + 1)) = 0 :=
    valW_all_zero _ _ _ (fun i hi => hzeros (p + 1 + i) (by omega) (by omega))
  have hnw : valW (setRangeNine
        (ds.set pp (Digit.sub (ds.getD pp Digit.Zero) Digit.One).difference)
        (p + 1) (pp - (p + 1))) (p + 1) (pp - (p + 1)) = 10 ^ (pp - (p + 1)) - 1 :=
    valW_all_nine _ _ _ (fun i hi => by rw [hget]; rw [if_pos ⟨by omega, by omega⟩])
  have hppeq : p + 1 + (pp - (p + 1)) = pp := by omega
  rw [hzw, hnw, hppeq]
  simp only [valW]
  have hgpp : (setRangeNine
        (ds.set pp (Digit.sub (ds.getD pp Digit.Zero) Digit.One).difference)
        (p + 1) (pp - (p + 1))).getD pp Digit.Zero
      = (Digit.sub (ds.getD pp Digit.Zero) Digit.One).difference := by
    rw [hget, if_neg (by omega), if_pos rfl]
  have hgrest : valW (setRangeNine
        (ds.set pp (Digit.sub (ds.getD pp Digit.Zero) Digit.One).difference)
        (p + 1) (pp - (p + 1))) (pp + 1) m = valW ds (pp + 1) m := by
    apply valW_congr
    intro i hi
    rw [hget, if_neg (by omega), if_neg (by omega)]
  rw [hgpp, hgrest, hsub]
  have e2 : 10 ^ (pp - (p + 1)) * ((ds.getD pp Digit.Zero).as_u8 + 10 * valW ds (pp + 1) m)
      = 10 ^ (pp - (p + 1)) * (ds.getD pp Digit.Zero).as_u8
        + 10 ^ (pp - (p + 1)) * (10 * valW ds (pp + 1) m) := by ring
  have e3 : 10 ^ (pp - (p + 1)) * ((ds.getD pp Digit.Zero).as_u8 - 1 + 10 * valW ds (pp + 1) m)
      = 10 ^ (pp - (p + 1)) * ((ds.getD pp Digit.Zero).as_u8 - 1)
        + 10 ^ (pp - (p + 1)) * (10 * valW ds (pp + 1) m) := by ring
  have e4 : 10 ^ (pp - (p + 1)) * ((ds.getD pp Digit.Zero).as_u8 - 1) + 10 ^ (pp - (p + 1))
      = 10 ^ (pp - (p + 1)) * (ds.getD pp Digit.Zero).as_u8 := by
    have h5 : (ds.getD pp Digit.Zero).as_u8 - 1 + 1 = (ds.getD pp Digit.Zero).as_u8 := by omega
    calc 10 ^ (pp - (p + 1)) * ((ds.getD pp Digit.Zero).as_u8 - 1) + 10 ^ (pp - (p + 1))
        = 10 ^ (pp - (p + 1)) * ((ds.getD pp Digit.Zero).as_u8 - 1 + 1) := by ring
      _ = 10 ^ (pp - (p + 1)) * (ds.getD pp Digit.Zero).as_u8 := by rw [h5]
  constructor
  · have h6 : 10 ^ (pp - (p + 1)) * 1
        ≤ 10 ^ (pp - (p + 1)) * ((ds.getD pp Digit.Zero).as_u8 + 10 * valW ds (pp + 1) m) :=
      Nat.mul_le_mul_left _ (by omega)
    omega
  · omega

/-- The position loop of `impl Sub for Natural` from `src/natural.rs`:
processes `count` positions starting at `p`, with `ds` the working
(mutated-in-place in Rust) copy of the minuend digits and `bs` the
subtrahend digits.  Returns the emitted difference digits in increasing
power order; `none` marks a run on which the Rust borrow scan never breaks
(no non-zero stored digit above the borrowing position), i.e. the Rust loop
never returns. -/
def subLoop (bs : List Digit) : Nat → List Digit → Nat → Option (List Digit)
  | 0, _, _ => some []
  | count + 1, ds, p =>
    if (Digit.sub ((Natural.mk ds).coefficient p) ((Natural.mk bs).coefficient p)).borrow then
      match borrowScan ds p with
      | none => none
      | some pp =>
        (subLoop bs count
            (setRangeNine
              (ds.set pp (Digit.sub ((Natural.mk ds).coefficient pp) Digit.One).difference)
              (p + 1) (pp - (p + 1)))
            (p + 1)).map
          (fun out =>
            (Digit.sub ((Natural.mk ds).coefficient p)
              ((Natural.mk bs).coefficient p)).difference :: out)
    else
      (subLoop bs count ds (p + 1)).map
        (fun out =>
          (Digit.sub ((Natural.mk ds).coefficient p)
            ((Natural.mk bs).coefficient p)).difference :: out)

/-- Invariant of the subtraction loop: on a successful run the emitted
digits plus the subtrahend window recover the minuend window; the loop
fails (the Rust code never returns) exactly when the minuend window is
smaller than the subtrahend window. -/
theorem subLoop_spec (bs : List Digit) : ∀ count ds p, ds.length ≤ p + count →
    (∀ out, subLoop bs count ds p = some out →
      out.length = count ∧ valD out + valW bs p count = valW ds p count)
    ∧ (subLoop bs count ds p = none → valW ds p count < valW bs p count) := by
  intro count
  induction count with
  | zero =>
    intro ds p hlen
    constructor
    · intro out h
      simp only [subLoop, Option.some.injEq] at h
      subst h
      exact ⟨rfl, by simp [valD, valW]⟩
    · intro h
      simp [subLoop] at h
  | succ count ih =>
    intro ds p hlen
    have hx9 := (ds.getD p Digit.Zero).as_u8_le_nine
    have hy9 := (bs.getD p Digit.Zero).as_u8_le_nine
    by_cases hbor :
        (Digit.sub (ds.getD p Digit.Zero) (bs.getD p Digit.Zero)).borrow = true
    · have hxy : (ds.getD p Digit.Zero).as_u8 < (bs.getD p Digit.Zero).as_u8 :=
        (Digit.sub_borrow_iff _ _).mp hbor
      have hdiff := Digit.sub_diff_borrow (ds.getD p Digit.Zero) (bs.getD p Digit.Zero) hxy
      cases hscan : borrowScan ds p with
      | none =>
        have hz := borrowScan_none ds p hscan
        have hA0 : valW ds (p + 1) count = 0 :=
          valW_all_zero ds (p + 1) count (fun i _ => hz (p + 1 + i) (by omega))
        constructor
        · intro out h
          simp only [subLoop, coefficient_mk, hscan] at h
          rw [if_pos hbor] at h
          cases h
        · intro _
          simp only [valW, hA0]
          omega
      | some pp =>
        have ⟨hpp1, hpp2, hnz, hzeros⟩ := borrowScan_some ds p pp hscan
        have hbr := borrow_rewrite ds p pp count hpp1 hpp2 (by omega) hnz hzeros
        have hlen2 : (setRangeNine
            (ds.set pp (Digit.sub (ds.getD pp Digit.Zero) Digit.One).difference)
            (p + 1) (pp - (p + 1))).length = ds.length := by
          rw [setRangeNine_length, List.length_set]
        have ihs := ih (setRangeNine
            (ds.set pp (Digit.sub (ds.getD pp Digit.Zero) Digit.One).difference)
            (p + 1) (pp - (p + 1))) (p + 1) (by omega)
        constructor
        · intro out h
          simp only [subLoop, coefficient_mk, hscan] at h
          rw [if_pos hbor] at h
          cases hinner : subLoop bs count (setRangeNine
              (ds.set pp (Digit.sub (ds.getD pp Digit.Zero) Digit.One).difference)
              (p + 1) (pp - (p + 1))) (p + 1) with
          | none => rw [hinner] at h; cases h
          | some out' =>
            rw [hinner] at h
            simp only [Option.map_some', Option.some.injEq] at h
            subst h
            have ⟨hl, hv⟩ := ihs.1 out' hinner
            constructor
            · simp [hl]
            · simp only [valD_cons, valW, hdiff]
              omega
        · intro h
          simp only [subLoop, coefficient_mk, hscan] at h
          rw [if_pos hbor] at h
          cases hinner : subLoop bs count (setRangeNine
              (ds.set pp (Digit.sub (ds.getD pp Digit.Zero) Digit.One).difference)
              (p + 1) (pp - (p + 1))) (p + 1) with
          | some out' => rw [hinner] at h; simp at h
          | none =>
            have hlt := ihs.2 hinner
            simp only [valW]
            omega
    · have hxy : ¬ (ds.getD p Digit.Zero).as_u8 < (bs.getD p Digit.Zero).as_u8 := by
        intro hc
        exact hbor ((Digit.sub_borrow_iff _ _).mpr hc)
      have hdiff := Digit.sub_diff_no_borrow (ds.getD p Digit.Zero) (bs.getD p Digit.Zero)
        (by omega)
      have ihs := ih ds (p + 1) (by omega)
      constructor
      · intro out h
        simp only [subLoop, coefficient_mk] at h
        rw [if_neg hbor] at h
        cases hinner : subLoop bs count ds (p + 1) with
        | none => rw [hinner] at h; cases h
        | some out' =>
          rw [hinner] at h
          simp only [Option.map_some', Option.some.injEq] at h
          subst h
          have ⟨hl, hv⟩ := ihs.1 out' hinner
          constructor
          · simp [hl]
          · simp only [valD_cons, valW, hdiff]
            omega
      · intro h
        simp only [subLoop, coefficient_mk] at h
        rw [if_neg hbor] at h
        cases hinner : subLoop bs count ds (p + 1) with
        | some out' => rw [hinner] at h; simp at h
        | none =>
          have hlt := ihs.2 hinner
          simp only [valW]
          omega

/-- The trailing-zero strip loop at the end of `impl Sub for Natural`
(`loop { if digits.len() > 1 && digits[last] == Zero { pop } else break }`);
the fuel argument is the initial length, which bounds the pops. -/
def stripZeros : Nat → List Digit → List Digit
  | 0, ds => ds
  | fuel + 1, ds =>
    if 1 < ds.length ∧ ds.getLast? = some Digit.Zero then stripZeros fuel ds.dropLast
    else ds

theorem stripZeros_val : ∀ (fuel : Nat) (ds : List Digit),
    valD (stripZeros fuel ds) = valD ds := by
  intro fuel
  induction fuel with
  | zero => intro ds; rfl
  | succ fuel ih =>
    intro ds
    simp only [stripZeros]
    split_ifs with h
    · rcases h with ⟨hlen, hlast⟩
      have hne : ds ≠ [] := by
        intro hnil; rw [hnil] at hlen; simp at hlen
      have hv := valD_dropLast_last ds hne
      have hz : ds.getLast hne = Digit.Zero := by
        have := List.getLast?_eq_getLast ds hne
        rw [this] at hlast
        exact Option.some_injective _ hlast
      rw [ih, hv, hz]
      simp [Digit.as_u8]
    · rfl

theorem stripZeros_ne_nil : ∀ (fuel : Nat) (ds : List Digit),
    ds ≠ [] → stripZeros fuel ds ≠ [] := by
  intro fuel
  induction fuel with
  | zero => intro ds h; exact h
  | succ fuel ih =>
    intro ds h
    simp only [stripZeros]
    split_ifs with hc
    · apply ih
      intro hnil
      have := List.length_dropLast ds
      rw [hnil] at this
      simp at this
      omega
    · exact h

theorem stripZeros_length_le : ∀ (fuel : Nat) (ds : List Digit),
    (stripZeros fuel ds).length ≤ ds.length := by
  intro fuel
  induction fuel with
  | zero => intro ds; exact Nat.le_refl _
  | succ fuel ih =>
    intro ds
    simp only [stripZeros]
    split_ifs with hc
    · have h1 := ih ds.dropLast
      have h2 := List.length_dropLast ds
      omega
    · exact Nat.le_refl _

theorem stripZeros_last : ∀ (fuel : Nat) (ds : List Digit), ds.length ≤ fuel →
    1 < (stripZeros fuel ds).length → (stripZeros fuel ds).getLast? ≠ some Digit.Zero := by
  intro fuel
  induction fuel with
  | zero =>
    intro ds hlen h1
    have : ds = [] := List.length_eq_zero.mp (by omega)
    subst this
    simp [stripZeros] at h1
  | succ fuel ih =>
    intro ds hlen
    simp only [stripZeros]
    split_ifs with hc
    · have h2 := List.length_dropLast ds
      exact ih ds.dropLast (by omega)
    · intro h1 hlast
      exact hc ⟨h1, hlast⟩

/-- `impl Sub for Natural` from `src/natural.rs`: run the position loop over
`max(degree, degree) + 1` places on a working copy of the minuend, then
strip most-significant zeros down to at least one digit.  `none` models the
non-returning borrow-scan run (minuend numerically smaller). -/
def Natural.sub (a b : Natural) : Option Natural :=
  (subLoop b.digits (max a.degree b.degree + 1) a.digits 0).map
    (fun out => ⟨stripZeros out.length out⟩)

/-- Subtraction: succeeds exactly when the subtrahend is numerically no
larger, in which case the difference restores the minuend by addition of
values, is canonical, and is no longer than the processed window. -/
theorem sub_spec (a b : Natural) :
    (b.val ≤ a.val → ∃ d, a.sub b = some d ∧ d.val + b.val = a.val ∧ d.Canon
      ∧ d.digits.length ≤ max a.degree b.degree + 1)
    ∧ (a.val < b.val → a.sub b = none) := by
  have hlen : a.digits.length ≤ 0 + (max a.degree b.degree + 1) := by
    unfold Natural.degree; omega
  have hblen : b.digits.length ≤ max a.degree b.degree + 1 := by
    unfold Natural.degree; omega
  have hs := subLoop_spec b.digits (max a.degree b.degree + 1) a.digits 0
  have hwa : valW a.digits 0 (max a.degree b.degree + 1) = a.val :=
    valW_eq_valD _ _ (by omega)
  have hwb : valW b.digits 0 (max a.degree b.degree + 1) = b.val :=
    valW_eq_valD _ _ hblen
  cases hres : subLoop b.digits (max a.degree b.degree + 1) a.digits 0 with
  | none =>
    have hlt := (hs hlen).2 hres
    rw [hwa, hwb] at hlt
    constructor
    · intro hba; omega
    · intro _
      unfold Natural.sub
      rw [hres]
      rfl
  | some out =>
    have ⟨hl, hv⟩ := (hs hlen).1 out hres
    rw [hwa, hwb] at hv
    have hone : out ≠ [] := by
      intro hnil
      rw [hnil] at hl
      simp at hl
    constructor
    · intro _
      refine ⟨⟨stripZeros out.length out⟩, ?_, ?_, ?_, ?_⟩
      · unfold Natural.sub
        rw [hres]
        rfl
      · unfold Natural.val
        simp only
        rw [stripZeros_val]
        unfold Natural.val at hv
        omega
      · constructor
        · exact stripZeros_ne_nil _ _ hone
        · intro hlast
          by_contra hne1
          have hpos := List.length_pos.mpr (stripZeros_ne_nil out.length out hone)
          have h2 : 1 < (stripZeros out.length out).length := by
            simp only at hne1 hpos ⊢
            omega
          exact stripZeros_last out.length out (Nat.le_refl _) h2 hlast
      · have := stripZeros_length_le out.length out
        simp only
        omega
    · intro hab
      omega

/-- The inner digit loop of `impl Mul for Natural`: multiply every digit of
`bs` by `a`, threading the `CarryProduct` state, and push a final non-zero
carry digit. -/
def mulRow (a : Digit) : List Digit → CarryProduct → List Digit
  | [], cp => if cp.carry ≠ Digit.Zero then [cp.carry] else []
  | b :: bs, cp => (cp.mul_two a b).product :: mulRow a bs (cp.mul_two a b)

/-- The partial-product construction of `impl Mul for Natural`: one summand
per digit of the left operand (`enumerate`), each shifted by `i` zero
digits. -/
def mulSummands (bs : List Digit) : List Digit → Nat → List Natural
  | [], _ => []
  | a :: rest, i =>
    Natural.mk (List.replicate i Digit.Zero ++ mulRow a bs ⟨Digit.Zero, Digit.Zero⟩)
      :: mulSummands bs rest (i + 1)

/-- `impl Mul for Natural` from `src/natural.rs`: sum the partial products
left to right starting from `zero()`. -/
def Natural.mul (a b : Natural) : Natural :=
  (mulSummands b.digits a.digits 0).foldl Natural.add Natural.zero

theorem mulRow_val (a : Digit) : ∀ (bs : List Digit) (cp : CarryProduct),
    valD (mulRow a bs cp) = a.as_u8 * valD bs + cp.carry.as_u8 := by
  intro bs
  induction bs with
  | nil =>
    intro cp
    simp only [mulRow, valD]
    split_ifs with h
    · simp [valD]
    · push_neg at h
      rw [h]
      simp [valD, Digit.as_u8]
  | cons b bs ih =>
    intro cp
    have hspec := Digit.mul_two_spec cp.carry cp.product a b
    have hcp : (CarryProduct.mk cp.carry cp.product) = cp := rfl
    rw [hcp] at hspec
    simp only [mulRow, valD_cons, ih]
    have hdist : a.as_u8 * (b.as_u8 + 10 * valD bs)
        = a.as_u8 * b.as_u8 + 10 * (a.as_u8 * valD bs) := by ring
    rw [hdist]
    omega

theorem valD_replicate_zero : ∀ i : Nat, valD (List.replicate i Digit.Zero) = 0 := by
  intro i
  induction i with
  | zero => rfl
  | succ i ih => simp [List.replicate, valD, ih, Digit.as_u8]

theorem val_zero : Natural.zero.val = 0 := rfl

theorem val_one : Natural.one.val = 1 := rfl

theorem mulSummands_fold (bs : List Digit) : ∀ (ds : List Digit) (i : Nat) (t : Natural),
    ((mulSummands bs ds i).foldl Natural.add t).val
      = t.val + 10 ^ i * (valD ds * valD bs) := by
  intro ds
  induction ds with
  | nil => intro i t; simp [mulSummands, valD]
  | cons a rest ih =>
    intro i t
    simp only [mulSummands, List.foldl_cons]
    rw [ih, val_add]
    have hsummand : (Natural.mk
        (List.replicate i Digit.Zero ++ mulRow a bs ⟨Digit.Zero, Digit.Zero⟩)).val
        = 10 ^ i * (a.as_u8 * valD bs) := by
      unfold Natural.val
      simp only
      rw [valD_append, valD_replicate_zero, mulRow_val, List.length_replicate]
      simp [Digit.as_u8]
    rw [hsummand, valD_cons]
    ring

/-- Multiplication computes the numeric product. -/
theorem val_mul (a b : Natural) : (a.mul b).val = a.val * b.val := by
  unfold Natural.mul
  rw [mulSummands_fold, val_zero]
  unfold Natural.val
  ring

/-- The repeated-subtraction loop of `impl Div for Natural`
(`while self >= product { n.increment(); product += other; }` followed by
`n - one()`), with explicit fuel: `none` means the fuel was exhausted before
the loop condition failed — on the Rust side the loop is still running.
`self >= product` is `partial_cmp != Some(Less)`. -/
def divLoop (a b : Natural) : Nat → Natural → Natural → Option Natural
  | 0, _, _ => none
  | fuel + 1, n, product =>
    if a.cmp product ≠ Ordering.lt then divLoop a b fuel (n.add Natural.one) (product.add b)
    else n.sub Natural.one

/-- `impl Div for Natural` from `src/natural.rs`, fuel-indexed:
`n = one(); product = other.clone();` then the repeated-subtraction loop. -/
def Natural.div (a b : Natural) (fuel : Nat) : Option Natural :=
  divLoop a b fuel Natural.one b

theorem cmp_zero_not_lt (a : Natural) : a.cmp Natural.zero ≠ Ordering.lt := by
  have hz : ∀ j, Natural.zero.digits.getD j Digit.Zero = Digit.Zero := by
    intro j
    cases j <;> rfl
  unfold Natural.cmp
  split_ifs with h1 h2
  · exact absurd h1 (by unfold Natural.degree Natural.zero; simp)
  · decide
  · intro hlt
    rw [cmpDown_lt_iff] at hlt
    have h0 : valW Natural.zero.digits 0 (a.degree + 1) = 0 :=
      valW_all_zero _ _ _ (fun i _ => hz (0 + i))
    omega

theorem zero_add_zero : Natural.zero.add Natural.zero = Natural.zero := by decide

theorem divLoop_zero_none (a : Natural) :
    ∀ fuel n, divLoop a Natural.zero fuel n Natural.zero = none := by
  intro fuel
  induction fuel with
  | zero => intro n; rfl
  | succ fuel ih =>
    intro n
    simp only [divLoop]
    rw [if_pos (cmp_zero_not_lt a), zero_add_zero]
    exact ih (n.add Natural.one)

theorem cmp_lt_of_shorter (a product : Natural) (hne : a.digits ≠ [])
    (hlen : a.digits.length < product.digits.length) :
    a.cmp product = Ordering.lt := by
  unfold Natural.cmp
  rw [if_pos]
  unfold Natural.degree
  have := List.length_pos.mpr hne
  omega

theorem sub_one_some (n : Natural) (h1 : 1 ≤ n.val) :
    ∃ q, n.sub Natural.one = some q ∧ q.val + 1 = n.val ∧ q.Canon := by
  have hs := (sub_spec n Natural.one).1 (by rw [val_one]; exact h1)
  rcases hs with ⟨d, hd1, hd2, hd3, -⟩
  exact ⟨d, hd1, by rw [val_one] at hd2; omega, hd3⟩

/-- General termination of the division loop: once the accumulator can reach
`10 ^ (digit count of a)` within the remaining fuel, the loop exits and the
final subtraction succeeds. -/
theorem divLoop_term (a b : Natural) (hne : a.digits ≠ []) :
    ∀ fuel n product, 1 ≤ n.val →
      10 ^ a.digits.length ≤ product.val + fuel * b.val →
      ∃ q, divLoop a b (fuel + 1) n product = some q := by
  intro fuel
  induction fuel with
  | zero =>
    intro n product h1 h2
    simp only [Nat.zero_mul, Nat.add_zero] at h2
    have hlt : a.digits.length < product.digits.length := by
      have hv := val_lt_pow_len product
      by_contra hge
      push_neg at hge
      have : (10:Nat) ^ product.digits.length ≤ 10 ^ a.digits.length :=
        Nat.pow_le_pow_right (by omega) hge
      omega
    have hcmp := cmp_lt_of_shorter a product hne hlt
    simp only [divLoop]
    rw [if_neg (by simp [hcmp])]
    rcases sub_one_some n h1 with ⟨q, hq, -, -⟩
    exact ⟨q, hq⟩
  | succ fuel ih =>
    intro n product h1 h2
    by_cases hc : a.cmp product ≠ Ordering.lt
    · simp only [divLoop]
      rw [if_pos hc]
      apply ih (n.add Natural.one) (product.add b)
      · rw [val_add, val_one]; omega
      · rw [val_add]
        have : (fuel + 1) * b.val = fuel * b.val + b.val := by ring
        omega
    · simp only [divLoop]
      rw [if_neg hc]
      rcases sub_one_some n h1 with ⟨q, hq, -, -⟩
      exact ⟨q, hq⟩

/-- The division loop on canonical operands: maintains
`product = n * b` numerically and returns exactly the truncating quotient. -/
theorem divLoop_canon (a b : Natural) (ha : a.Canon) (hb : b.Canon) (hb1 : 1 ≤ b.val) :
    ∀ fuel n product, product.Canon → product.val = n.val * b.val → 1 ≤ n.val →
      (n.val - 1) * b.val ≤ a.val → a.val / b.val + 2 ≤ n.val + fuel →
      ∃ q, divLoop a b fuel n product = some q ∧ q.val = a.val / b.val ∧ q.Canon := by
  intro fuel
  induction fuel with
  | zero =>
    intro n product hp hpv h1 hle hfuel
    exfalso
    have hq : n.val - 1 ≤ a.val / b.val :=
      (Nat.le_div_iff_mul_le (by omega)).mpr hle
    omega
  | succ fuel ih =>
    intro n product hp hpv h1 hle hfuel
    have hcc := cmp_correct a product ha hp
    by_cases hc : a.cmp product ≠ Ordering.lt
    · have hge : product.val ≤ a.val := by
        rcases Nat.lt_or_ge a.val product.val with hx | hx
        · exact absurd (hcc.1.mpr hx) hc
        · exact hx
      simp only [divLoop]
      rw [if_pos hc]
      apply ih (n.add Natural.one) (product.add b) (canon_add product b hp hb)
      · rw [val_add, val_add, val_one, hpv]; ring
      · rw [val_add, val_one]; omega
      · rw [val_add, val_one]
        have h9 : n.val + 1 - 1 = n.val := by omega
        rw [h9, ← hpv]
        exact hge
      · rw [val_add, val_one]; omega
    · push_neg at hc
      have hlt : a.val < product.val := hcc.1.mp hc
      simp only [divLoop]
      rw [if_neg (by simp [hc])]
      rcases sub_one_some n h1 with ⟨q, hq, hqv, hqc⟩
      refine ⟨q, hq, ?_, hqc⟩
      have hdiv_lt : a.val / b.val < n.val := by
        rw [Nat.div_lt_iff_lt_mul (by omega)]
        rw [hpv] at hlt
        omega
      have hdiv_ge : n.val - 1 ≤ a.val / b.val :=
        (Nat.le_div_iff_mul_le (by omega)).mpr hle
      omega

/-- The character loop of `impl FromStr for Natural`: each parsed digit is
inserted at index 0 (`digits.insert(0, d)`), so the accumulator holds the
digits least-significant first; a bad character propagates its error
(`?`). -/
def fromStrLoop : List Char → List Digit → Except String (List Digit)
  | [], acc => .ok acc
  | c :: cs, acc =>
    match Digit.tryFromChar c with
    | .error e => .error e
    | .ok d => fromStrLoop cs (d :: acc)

/-- `impl FromStr for Natural` from `src/natural.rs`: parse every character,
then reject a zero-digit result. -/
def Natural.from_str (s : List Char) : Except String Natural :=
  match fromStrLoop s [] with
  | .error e => .error e
  | .ok [] => .error "We cannot have a zero-digit number"
  | .ok (d :: ds) => .ok ⟨d :: ds⟩

/-- `impl Display for Natural` from `src/natural.rs`: render the digits in
reverse storage order (most significant first). -/
def Natural.format (n : Natural) : List Char := n.digits.reverse.map Digit.toChar

/-- Total helper used only in proofs: the digit of a character, defaulting to
zero off the digit range. -/
def digitOf (c : Char) : Digit :=
  match Digit.tryFromChar c with
  | .ok d => d
  | .error _ => Digit.Zero

theorem digitOf_eq (c : Char) (d : Digit) (h : Digit.tryFromChar c = .ok d) :
    digitOf c = d := by
  unfold digitOf
  rw [h]

theorem tryFromChar_bad (c : Char) (h : ∀ d, Digit.tryFromChar c ≠ .ok d) :
    Digit.tryFromChar c = .error "not a digit" := by
  unfold Digit.tryFromChar
  split_ifs with h0 h1 h2 h3 h4 h5 h6 h7 h8 h9
  · subst h0; exact absurd rfl (h Digit.Zero)
  · subst h1; exact absurd rfl (h Digit.One)
  · subst h2; exact absurd rfl (h Digit.Two)
  · subst h3; exact absurd rfl (h Digit.Three)
  · subst h4; exact absurd rfl (h Digit.Four)
  · subst h5; exact absurd rfl (h Digit.Five)
  · subst h6; exact absurd rfl (h Digit.Six)
  · subst h7; exact absurd rfl (h Digit.Seven)
  · subst h8; exact absurd rfl (h Digit.Eight)
  · subst h9; exact absurd rfl (h Digit.Nine)
  · rfl

theorem fromStrLoop_ok : ∀ (s : List Char) (acc : List Digit),
    (∀ c ∈ s, ∃ d, Digit.tryFromChar c = .ok d) →
    fromStrLoop s acc = .ok ((s.map digitOf).reverse ++ acc) := by
  intro s
  induction s with
  | nil => intro acc _; simp [fromStrLoop]
  | cons c cs ih =>
    intro acc h
    rcases h c (List.mem_cons_self c cs) with ⟨d, hd⟩
    simp only [fromStrLoop, hd]
    rw [ih (d :: acc) (fun x hx => h x (List.mem_cons_of_mem c hx))]
    rw [List.map_cons, List.reverse_cons, List.append_assoc, digitOf_eq c d hd]
    rfl

theorem fromStrLoop_bad : ∀ (s : List Char) (acc : List Digit),
    (∃ c ∈ s, ∀ d, Digit.tryFromChar c ≠ .ok d) →
    fromStrLoop s acc = .error "not a digit" := by
  intro s
  induction s with
  | nil => intro acc h; rcases h with ⟨c, hc, -⟩; simp at hc
  | cons c cs ih =>
    intro acc h
    by_cases hc : ∃ d, Digit.tryFromChar c = .ok d
    · rcases hc with ⟨d, hd⟩
      simp only [fromStrLoop, hd]
      apply ih
      rcases h with ⟨x, hx1, hx2⟩
      rcases List.mem_cons.mp hx1 with he | hm
      · exfalso; subst he; exact hx2 d hd
      · exact ⟨x, hm, hx2⟩
    · push_neg at hc
      have := tryFromChar_bad c hc
      simp only [fromStrLoop, this]

theorem getD_zero_eq_head (ds : List Digit) :
    ds.getD 0 Digit.Zero = ds.head?.getD Digit.Zero := by
  cases ds <;> rfl

instance : DecidableEq (Except String Digit) := fun x y =>
  match x, y with
  | .ok a, .ok b =>
    if h : a = b then .isTrue (by rw [h])
    else .isFalse (fun hc => h (by injection hc))
  | .ok _, .error _ => .isFalse (fun hc => Except.noConfusion hc)
  | .error _, .ok _ => .isFalse (fun hc => Except.noConfusion hc)
  | .error e, .error f =>
    if h : e = f then .isTrue (by rw [h])
    else .isFalse (fun hc => h (by injection hc))

theorem natural_eq_of_digits (x y : Natural) (h : x.digits = y.digits) : x = y := by
  cases x
  cases y
  simp_all

theorem singleton_of_last_zero : ∀ ds : List Digit, ds.length = 1 →
    ds.getLast? = some Digit.Zero → ds = [Digit.Zero] := by
  intro ds h1 h2
  match ds, h1 with
  | [x], _ =>
    have hx : some x = some Digit.Zero := h2
    rw [Option.some_injective _ hx]

/-- C1: the spec demands that `divide(a, zero())` be the defined error
`DivisionByZero` and not an infinite loop.  In the code, `product` starts as
`zero()` and `zero() + zero() = zero()`, while `a >= zero()` always holds
under the source comparison, so `while self >= product` never exits: the
model exhausts every fuel bound (`none`), i.e. the Rust loop never
returns. -/
theorem c1_div_by_zero_never_returns (a : Natural) (fuel : Nat)
    (_h : a.digits ≠ []) :
    Natural.div a Natural.zero fuel = none := by
  unfold Natural.div
  exact divLoop_zero_none a fuel Natural.one

theorem c1_witness :
    (⟨[Digit.Five]⟩ : Natural).digits ≠ []
    ∧ Natural.div ⟨[Digit.Five]⟩ Natural.zero 7 = none :=
  ⟨by decide, c1_div_by_zero_never_returns ⟨[Digit.Five]⟩ 7 (by decide)⟩

/-- C2: the spec demands a defined `Underflow` error when `a < b`.  In the
code the borrow scan (`loop { pp += 1; ... }`) reads `coefficient(pp)`,
which is `Zero` for every power past the stored end, so when no stored
digit above the borrowing position is non-zero the loop never breaks: for
every numerically smaller minuend the subtraction never returns (`none` in
the model), instead of reporting `Underflow`. -/
theorem c2_sub_underflow_never_returns (a b : Natural) (h : a.val < b.val) :
    a.sub b = none :=
  (sub_spec a b).2 h

theorem c2_witness :
    Natural.val ⟨[Digit.Zero]⟩ < Natural.val ⟨[Digit.One]⟩
    ∧ Natural.sub ⟨[Digit.Zero]⟩ ⟨[Digit.One]⟩ = none :=
  ⟨by decide, c2_sub_underflow_never_returns ⟨[Digit.Zero]⟩ ⟨[Digit.One]⟩ (by decide)⟩

/-- C3 counterexample: `parse("7")` and `parse("07")` have the same numeric
value 7, yet the source comparison (degree first) reports the first
strictly smaller, so the ordering outcome does not agree with the numeric
values when a parse-produced leading zero is present. -/
theorem c3_counterexample :
    Natural.cmp ⟨[Digit.Seven]⟩ ⟨[Digit.Seven, Digit.Zero]⟩ = Ordering.lt
    ∧ Natural.val ⟨[Digit.Seven]⟩ = Natural.val ⟨[Digit.Seven, Digit.Zero]⟩ := by
  decide

/-- C3 amended: restricted to canonical digit sequences (no stored leading
zero except for `[0]` itself), exactly one of less / equal / greater holds
and each agrees with the numeric values: `<` mirrors value `<`, structural
equality (the derived `PartialEq`) mirrors value equality, and `>` mirrors
value `>`. -/
theorem c3_cmp_trichotomy_canonical (a b : Natural) (ha : a.Canon) (hb : b.Canon) :
    (a.cmp b = Ordering.lt ↔ a.val < b.val)
    ∧ (a = b ↔ a.val = b.val)
    ∧ (a.cmp b = Ordering.gt ↔ b.val < a.val) :=
  cmp_correct a b ha hb

theorem c3_witness :
    (⟨[Digit.Five]⟩ : Natural).Canon
    ∧ (⟨[Digit.Three]⟩ : Natural).Canon
    ∧ (Natural.cmp ⟨[Digit.Five]⟩ ⟨[Digit.Three]⟩ = Ordering.gt
        ↔ Natural.val ⟨[Digit.Three]⟩ < Natural.val ⟨[Digit.Five]⟩) :=
  ⟨by decide, by decide,
    (c3_cmp_trichotomy_canonical ⟨[Digit.Five]⟩ ⟨[Digit.Three]⟩
      (by decide) (by decide)).2.2⟩

/-- C4 counterexample: `multiply(parse("0"), parse("12"))` produces the
two-digit sequence `[0, 0]`, which carries a most-significant zero digit
and is not the single-digit `[0]`: multiplication does not strip trailing
zeros (the spec itself notes in section 4.5 that no trimming is applied to
the final sum). -/
theorem c4_counterexample :
    Natural.mul ⟨[Digit.Zero]⟩ ⟨[Digit.Two, Digit.One]⟩ = ⟨[Digit.Zero, Digit.Zero]⟩
    ∧ (⟨[Digit.Zero, Digit.Zero]⟩ : Natural).digits.getLast? = some Digit.Zero
    ∧ (⟨[Digit.Zero, Digit.Zero]⟩ : Natural).digits ≠ [Digit.Zero] := by
  decide

/-- C4 amended: the subtraction half of the claim holds — every digit
sequence returned by a successful `subtract` has no most-significant zero
digit unless it is exactly `[0]` — while the multiplication half fails
(multiplication applies no trimming; see the counterexample). -/
theorem c4_sub_strips (a b d : Natural) (h : a.sub b = some d) :
    d.digits ≠ [] ∧ (d.digits.getLast? = some Digit.Zero → d.digits = [Digit.Zero]) := by
  have hs := sub_spec a b
  rcases Nat.lt_or_ge a.val b.val with hlt | hge
  · rw [hs.2 hlt] at h
    cases h
  · rcases hs.1 hge with ⟨d2, hd2, -, hc, -⟩
    rw [hd2] at h
    have he : d2 = d := Option.some_injective _ h
    subst he
    refine ⟨hc.1, ?_⟩
    intro hlast
    exact singleton_of_last_zero d2.digits (hc.2 hlast) hlast

theorem c4_witness :
    Natural.sub ⟨[Digit.One]⟩ ⟨[Digit.One]⟩ = some ⟨[Digit.Zero]⟩
    ∧ (⟨[Digit.Zero]⟩ : Natural).digits ≠ []
    ∧ (⟨[Digit.Zero]⟩ : Natural).digits = [Digit.Zero] :=
  ⟨by decide,
    (c4_sub_strips ⟨[Digit.One]⟩ ⟨[Digit.One]⟩ ⟨[Digit.Zero]⟩ (by decide)).1,
    (c4_sub_strips ⟨[Digit.One]⟩ ⟨[Digit.One]⟩ ⟨[Digit.Zero]⟩ (by decide)).2 (by decide)⟩

/-- C5 counterexample: `parse("00")` is structurally different from
`zero()` yet numerically zero.  With `a = parse("15")` the loop guard
`a >= product` holds and the accumulator `[0,0] + [0,0] = [0,0]` never
changes, so the division loop never terminates (fuel 50 shown exhausted,
and the exhibited guard and fixed-point facts show every fuel is
exhausted), contradicting the claim that `b ≠ zero()` suffices for
termination. -/
theorem c5_counterexample :
    Natural.div ⟨[Digit.Five, Digit.One]⟩ ⟨[Digit.Zero, Digit.Zero]⟩ 50 = none
    ∧ (⟨[Digit.Zero, Digit.Zero]⟩ : Natural) ≠ Natural.zero
    ∧ Natural.cmp ⟨[Digit.Five, Digit.One]⟩ ⟨[Digit.Zero, Digit.Zero]⟩ ≠ Ordering.lt
    ∧ Natural.add ⟨[Digit.Zero, Digit.Zero]⟩ ⟨[Digit.Zero, Digit.Zero]⟩
        = ⟨[Digit.Zero, Digit.Zero]⟩ := by
  decide

/-- C5 amended: for every divisor of non-zero numeric value the division
loop terminates (fuel `10 ^ (digit count of a) + 1` always suffices), and
for canonical operands it terminates within `⌊a/b⌋ + 2` loop iterations —
proportional to the numeric value of the true quotient — returning that
quotient. -/
theorem c5_div_terminates (a b : Natural) (hne : a.digits ≠ []) (hb : 1 ≤ b.val) :
    (∃ q, Natural.div a b (10 ^ a.digits.length + 1) = some q)
    ∧ (a.Canon → b.Canon →
        ∃ q, Natural.div a b (a.val / b.val + 2) = some q ∧ q.val = a.val / b.val) := by
  constructor
  · unfold Natural.div
    apply divLoop_term a b hne (10 ^ a.digits.length) Natural.one b
    · rw [val_one]
    · have h1 : 10 ^ a.digits.length ≤ 10 ^ a.digits.length * b.val :=
        Nat.le_mul_of_pos_right _ (by omega)
      omega
  · intro ha hcb
    obtain ⟨q, hq, hqv, -⟩ := divLoop_canon a b ha hcb hb (a.val / b.val + 2)
      Natural.one b hcb (by rw [val_one, Nat.one_mul]) (by rw [val_one])
      (by simp [val_one]) (by rw [val_one]; omega)
    exact ⟨q, hq, hqv⟩

theorem c5_witness :
    (⟨[Digit.Six, Digit.One]⟩ : Natural).digits ≠ []
    ∧ 1 ≤ Natural.val ⟨[Digit.Five]⟩
    ∧ ((∃ q, Natural.div ⟨[Digit.Six, Digit.One]⟩ ⟨[Digit.Five]⟩
          (10 ^ (⟨[Digit.Six, Digit.One]⟩ : Natural).digits.length + 1) = some q)
      ∧ ((⟨[Digit.Six, Digit.One]⟩ : Natural).Canon → (⟨[Digit.Five]⟩ : Natural).Canon →
          ∃ q, Natural.div ⟨[Digit.Six, Digit.One]⟩ ⟨[Digit.Five]⟩
              (Natural.val ⟨[Digit.Six, Digit.One]⟩ / Natural.val ⟨[Digit.Five]⟩ + 2) = some q
            ∧ q.val = Natural.val ⟨[Digit.Six, Digit.One]⟩ / Natural.val ⟨[Digit.Five]⟩)) :=
  ⟨by decide, by decide,
    c5_div_terminates ⟨[Digit.Six, Digit.One]⟩ ⟨[Digit.Five]⟩ (by decide) (by decide)⟩

/-- C6: round-trip — for every non-empty all-digit character string with no
leading zero (beyond a lone `"0"`), formatting the parsed `Natural`
reproduces the string exactly.  (The proof does not even need the
leading-zero restriction: neither parse nor format trims.) -/
theorem c6_format_parse_roundtrip (s : List Char) (hne : s ≠ [])
    (hdig : ∀ c ∈ s, ∃ d, Digit.tryFromChar c = .ok d)
    (_hlead : s.head? = some '0' → s = ['0']) :
    ∃ n, Natural.from_str s = .ok n ∧ n.format = s := by
  have hok := fromStrLoop_ok s [] hdig
  rw [List.append_nil] at hok
  unfold Natural.from_str
  cases hms : (s.map digitOf).reverse with
  | nil =>
    exfalso
    have h1 : s.map digitOf = [] := by
      have := congrArg List.reverse hms
      simpa using this
    exact hne (List.map_eq_nil_iff.mp h1)
  | cons d ds =>
    rw [hok, hms]
    refine ⟨⟨d :: ds⟩, rfl, ?_⟩
    unfold Natural.format
    simp only
    rw [← hms, List.reverse_reverse, List.map_map]
    have hcongr : ∀ c ∈ s, (Digit.toChar ∘ digitOf) c = id c := by
      intro c hc
      rcases hdig c hc with ⟨dd, hdd⟩
      simp only [Function.comp_apply, id_eq]
      rw [digitOf_eq c dd hdd]
      exact Digit.tryFromChar_toChar c dd hdd
    rw [List.map_congr_left hcongr, List.map_id]

theorem c6_witness :
    (['1', '2', '3'] : List Char) ≠ []
    ∧ (∃ n, Natural.from_str ['1', '2', '3'] = .ok n ∧ n.format = ['1', '2', '3']) :=
  ⟨by decide,
    c6_format_parse_roundtrip ['1', '2', '3'] (by decide)
      (by decide) (by decide)⟩

/-- C7 counterexample: `a = parse("07")`, `b = parse("7")`.  Under the
source comparison `a >= b` holds (degree 1 beats degree 0), the
subtraction succeeds with difference `[0]`, but `add(subtract(a,b), b)`
is `[7]`, which is structurally different from `a = [7,0]` (the derived
`PartialEq` compares digit sequences): the inverse pair fails on a
non-canonical minuend. -/
theorem c7_counterexample :
    Natural.cmp ⟨[Digit.Seven, Digit.Zero]⟩ ⟨[Digit.Seven]⟩ = Ordering.gt
    ∧ Natural.sub ⟨[Digit.Seven, Digit.Zero]⟩ ⟨[Digit.Seven]⟩ = some ⟨[Digit.Zero]⟩
    ∧ Natural.add ⟨[Digit.Zero]⟩ ⟨[Digit.Seven]⟩ = ⟨[Digit.Seven]⟩
    ∧ (⟨[Digit.Seven]⟩ : Natural) ≠ ⟨[Digit.Seven, Digit.Zero]⟩ := by
  decide

/-- C7 amended: for a canonical minuend `a` and any (non-empty) `b` with
`a >= b` under the source comparison, the subtraction succeeds and adding
`b` back restores `a` exactly. -/
theorem c7_sub_add_roundtrip (a b : Natural) (ha : a.Canon) (hbne : b.digits ≠ [])
    (hge : a.cmp b ≠ Ordering.lt) :
    ∃ d, a.sub b = some d ∧ d.add b = a := by
  have hane := ha.1
  have hal : 1 ≤ a.digits.length := List.length_pos.mpr hane
  have hbl : 1 ≤ b.digits.length := List.length_pos.mpr hbne
  have hlen_le : b.digits.length ≤ a.digits.length := by
    by_contra hgt
    push_neg at hgt
    apply hge
    unfold Natural.cmp
    rw [if_pos]
    unfold Natural.degree
    omega
  have hval_le : b.val ≤ a.val := by
    rcases Nat.lt_or_ge b.digits.length a.digits.length with hlt | hbig
    · have h1 := valD_lt b.digits
      have h2 : (10:Nat) ^ b.digits.length ≤ 10 ^ (a.digits.length - 1) :=
        Nat.pow_le_pow_right (by omega) (by omega)
      have h3 := canon_val_lb a ha (by omega)
      unfold Natural.val at h3 ⊢
      omega
    · have hleq : a.digits.length = b.digits.length := by omega
      by_contra hv
      push_neg at hv
      apply hge
      unfold Natural.cmp
      have hdeq : a.degree = b.degree := by
        unfold Natural.degree
        omega
      rw [if_neg (by omega), if_neg (by omega)]
      rw [cmpDown_lt_iff]
      have hcount : a.degree + 1 = a.digits.length := by
        unfold Natural.degree
        omega
      rw [hcount, valW_eq_valD _ _ (Nat.le_refl _), valW_eq_valD _ _ (by omega)]
      exact hv
  rcases (sub_spec a b).1 hval_le with ⟨d, hd, hdv, hdc, hdl⟩
  refine ⟨d, hd, ?_⟩
  have hvo : (d.add b).val = a.val := by
    rw [val_add]
    omega
  have hdl2 : d.digits.length ≤ a.digits.length := by
    unfold Natural.degree at hdl
    omega
  have hdne : d.digits ≠ [] := hdc.1
  have hdpos := List.length_pos.mpr hdne
  have hopos := List.length_pos.mpr (add_digits_ne_nil d b)
  have hvp := val_lt_pow_len (d.add b)
  rw [hvo] at hvp
  have hva := val_lt_pow_len a
  have hlow : 2 ≤ a.digits.length → a.digits.length - 1 < (d.add b).digits.length := by
    intro h2
    have hca := canon_val_lb a ha h2
    by_contra hno
    push_neg at hno
    have : (10:Nat) ^ (d.add b).digits.length ≤ 10 ^ (a.digits.length - 1) :=
      Nat.pow_le_pow_right (by omega) hno
    omega
  have hlo : (d.add b).digits.length = a.digits.length := by
    rcases add_length d b with h | ⟨h, hv10⟩
    · have hle : (d.add b).digits.length ≤ a.digits.length := by
        rw [h]
        unfold Natural.degree
        omega
      rcases Nat.lt_or_ge a.digits.length 2 with h1 | h1
      · omega
      · have := hlow h1
        omega
    · rw [hvo] at hv10
      have hmaxlt : max d.degree b.degree + 1 < a.digits.length := by
        by_contra hno
        push_neg at hno
        have : (10:Nat) ^ a.digits.length ≤ 10 ^ (max d.degree b.degree + 1) :=
          Nat.pow_le_pow_right (by omega) hno
        omega
      have hle : (d.add b).digits.length ≤ a.digits.length := by
        rw [h]
        omega
      have h1 : 2 ≤ a.digits.length := by omega
      have := hlow h1
      omega
  apply natural_eq_of_digits
  apply valD_inj_len _ _ hlo
  unfold Natural.val at hvo
  exact hvo

theorem c7_witness :
    (⟨[Digit.Zero, Digit.One]⟩ : Natural).Canon
    ∧ (⟨[Digit.One]⟩ : Natural).digits ≠ []
    ∧ Natural.cmp ⟨[Digit.Zero, Digit.One]⟩ ⟨[Digit.One]⟩ ≠ Ordering.lt
    ∧ ∃ d, Natural.sub ⟨[Digit.Zero, Digit.One]⟩ ⟨[Digit.One]⟩ = some d
        ∧ Natural.add d ⟨[Digit.One]⟩ = ⟨[Digit.Zero, Digit.One]⟩ :=
  ⟨by decide, by decide, by decide,
    c7_sub_add_roundtrip ⟨[Digit.Zero, Digit.One]⟩ ⟨[Digit.One]⟩
      (by decide) (by decide) (by decide)⟩

/-- C8 counterexample: `a = parse("5")`, `b = parse("01")` (numeric value
1, so `b ≠ zero()`).  The loop guard compares degrees first, so
`5 >= [1,0]` is already false and `divide` returns `0` instead of the true
quotient 5; the upper bound of the claim fails numerically:
`5 < value(multiply(add(divide(a,b), one()), b)) = 1` is false. -/
theorem c8_counterexample :
    (⟨[Digit.One, Digit.Zero]⟩ : Natural) ≠ Natural.zero
    ∧ Natural.div ⟨[Digit.Five]⟩ ⟨[Digit.One, Digit.Zero]⟩ 10 = some ⟨[Digit.Zero]⟩
    ∧ ¬ (Natural.val ⟨[Digit.Five]⟩
        < Natural.val (Natural.mul (Natural.add ⟨[Digit.Zero]⟩ Natural.one)
            ⟨[Digit.One, Digit.Zero]⟩)) := by
  decide

/-- C8 amended: for canonical `a` and `b` with `b ≠ zero()`, the division
loop (with fuel `⌊a/b⌋ + 2`, enough for its value-proportional iteration
count) returns a quotient `q` that is truncating in numeric value:
`value(multiply(q, b)) ≤ value(a) < value(multiply(add(q, one()), b))`. -/
theorem c8_div_truncating (a b : Natural) (ha : a.Canon) (hb : b.Canon)
    (hz : b ≠ Natural.zero) :
    ∃ q, Natural.div a b (a.val / b.val + 2) = some q
      ∧ (q.mul b).val ≤ a.val
      ∧ a.val < ((q.add Natural.one).mul b).val := by
  have hb1 : 1 ≤ b.val := canon_ne_zero_val b hb hz
  obtain ⟨q, hq, hqv, -⟩ := divLoop_canon a b ha hb hb1 (a.val / b.val + 2)
    Natural.one b hb (by rw [val_one, Nat.one_mul]) (by rw [val_one])
    (by simp [val_one]) (by rw [val_one]; omega)
  refine ⟨q, hq, ?_, ?_⟩
  · rw [val_mul, hqv]
    exact Nat.div_mul_le_self a.val b.val
  · rw [val_mul, val_add, val_one, hqv]
    have h1 := Nat.div_add_mod a.val b.val
    have h2 : a.val % b.val < b.val := Nat.mod_lt _ (by omega)
    have h3 : (a.val / b.val + 1) * b.val = a.val / b.val * b.val + b.val := by ring
    have h4 : a.val / b.val * b.val = b.val * (a.val / b.val) := Nat.mul_comm _ _
    omega

theorem c8_witness :
    (⟨[Digit.Six, Digit.One]⟩ : Natural).Canon
    ∧ (⟨[Digit.Five]⟩ : Natural).Canon
    ∧ (⟨[Digit.Five]⟩ : Natural) ≠ Natural.zero
    ∧ ∃ q, Natural.div ⟨[Digit.Six, Digit.One]⟩ ⟨[Digit.Five]⟩
          (Natural.val ⟨[Digit.Six, Digit.One]⟩ / Natural.val ⟨[Digit.Five]⟩ + 2) = some q
        ∧ (q.mul ⟨[Digit.Five]⟩).val ≤ Natural.val ⟨[Digit.Six, Digit.One]⟩
        ∧ Natural.val ⟨[Digit.Six, Digit.One]⟩
            < ((q.add Natural.one).mul ⟨[Digit.Five]⟩).val :=
  ⟨by decide, by decide, by decide,
    c8_div_truncating ⟨[Digit.Six, Digit.One]⟩ ⟨[Digit.Five]⟩
      (by decide) (by decide) (by decide)⟩

/-- C9: parsing succeeds exactly on non-empty all-digit strings.  The empty
string fails with the zero-digit error (`EmptyNumber` in the spec's
taxonomy, the literal `"We cannot have a zero-digit number"` in the code);
a string with any non-digit character fails with the digit parser's
propagated error (`InvalidDigit`, literally `"not a digit"`); and every
non-empty all-digit string parses, with the index-0 stored digit equal to
the digit of the last character of the text. -/
theorem c9_parse_classification (s : List Char) :
    (s = [] → Natural.from_str s = .error "We cannot have a zero-digit number")
    ∧ ((∃ c ∈ s, ∀ d, Digit.tryFromChar c ≠ .ok d) →
        Natural.from_str s = .error "not a digit")
    ∧ (s ≠ [] → (∀ c ∈ s, ∃ d, Digit.tryFromChar c = .ok d) →
        ∃ n, Natural.from_str s = .ok n
          ∧ ∀ c, s.getLast? = some c →
              ∃ d, Digit.tryFromChar c = .ok d ∧ n.coefficient 0 = d) := by
  refine ⟨?_, ?_, ?_⟩
  · intro h
    subst h
    rfl
  · intro hbad
    unfold Natural.from_str
    rw [fromStrLoop_bad s [] hbad]
  · intro hne hdig
    have hok := fromStrLoop_ok s [] hdig
    rw [List.append_nil] at hok
    unfold Natural.from_str
    cases hms : (s.map digitOf).reverse with
    | nil =>
      exfalso
      have h1 : s.map digitOf = [] := by
        have := congrArg List.reverse hms
        simpa using this
      exact hne (List.map_eq_nil_iff.mp h1)
    | cons d ds =>
      rw [hok, hms]
      refine ⟨⟨d :: ds⟩, rfl, ?_⟩
      intro c hc
      have hcm : c ∈ s := List.mem_of_mem_getLast? hc
      rcases hdig c hcm with ⟨dd, hdd⟩
      refine ⟨digitOf c, ?_, ?_⟩
      · rw [digitOf_eq c dd hdd]
        exact hdd
      · have h1 : (s.map digitOf).reverse.head? = (s.map digitOf).getLast? :=
          List.head?_reverse _
        have h2 : (s.map digitOf).getLast? = s.getLast?.map digitOf :=
          List.getLast?_map _ _
        rw [hms] at h1
        rw [h2, hc] at h1
        simp only [List.head?_cons, Option.map_some'] at h1
        have hdm : d = digitOf c := Option.some_injective _ h1
        rw [coefficient_mk, List.getD_cons_zero, hdm]

theorem c9_witness :
    Natural.from_str [] = .error "We cannot have a zero-digit number"
    ∧ Natural.from_str ['4', 'x'] = .error "not a digit"
    ∧ ∃ n, Natural.from_str ['1', '2'] = .ok n
        ∧ ∀ c, (['1', '2'] : List Char).getLast? = some c →
            ∃ d, Digit.tryFromChar c = .ok d ∧ n.coefficient 0 = d :=
  ⟨(c9_parse_classification []).1 rfl,
    (c9_parse_classification ['4', 'x']).2.1 ⟨'x', by decide, by decide⟩,
    (c9_parse_classification ['1', '2']).2.2 (by decide) (by decide)⟩

/-- C10: at the public interface `coefficient(power)` is total — it returns
`Digit::Zero` for every power above `degree()` — while
`set_coefficient(power, d)` indexes the stored sequence without a bounds
guard, so the same powers hit the Rust index panic (modelled as `none`)
instead of zero-extending. -/
theorem c10_coefficient_total_set_panics (n : Natural) (p : Nat) (d : Digit)
    (hne : n.digits ≠ []) (hp : n.degree < p) :
    n.coefficient p = Digit.Zero ∧ n.set_coefficient p d = none := by
  have hlen := List.length_pos.mpr hne
  constructor
  · unfold Natural.coefficient
    rw [if_pos hp]
  · unfold Natural.set_coefficient
    unfold Natural.degree at hp
    rw [if_neg (by omega)]

theorem c10_witness :
    (⟨[Digit.Five]⟩ : Natural).digits ≠ []
    ∧ (⟨[Digit.Five]⟩ : Natural).degree < 3
    ∧ Natural.coefficient ⟨[Digit.Five]⟩ 3 = Digit.Zero
    ∧ Natural.set_coefficient ⟨[Digit.Five]⟩ 3 Digit.One = none :=
  ⟨by decide, by decide,
    (c10_coefficient_total_set_panics ⟨[Digit.Five]⟩ 3 Digit.One
      (by decide) (by decide)).1,
    (c10_coefficient_total_set_panics ⟨[Digit.Five]⟩ 3 Digit.One
      (by decide) (by decide)).2⟩
